import Mathlib

/-!
Shallow embedding of the expiration-monitoring engine of `rust_ssl_checker`
(`src/checker/src/services/domain_checker.rs`), and proofs checking the
natural-language specification against it.

Strings are modelled as `List Char` (`LC`); Rust's `str` helpers (`trim`,
`to_lowercase`, `split`, `contains`, `lines`, `find`) are embedded below as
functions on `LC` mirroring their documented behaviour.  Network calls
(WHOIS lookup, TLS handshake), the `addr` crate's public-suffix parsing and
`chrono`'s textual date parsers are external to the repository; they enter
the model as explicit parameters (`Env`, `addrRoot`, `WhoisParsers`) so that
the repository's own control flow is embedded exactly while the environment
stays universally quantified.

Timestamps are seconds since the Unix epoch as `Int` (chrono `DateTime<Utc>`
at second precision); `chrono::Duration::num_days` truncates toward zero,
which is `Int.tdiv` here.
-/

namespace SslChecker

abbrev LC := List Char

/-- Rust `char::is_whitespace` restricted to the characters relevant here;
`Char.isWhitespace` covers space, tab, CR, LF exactly as the trim behaviour
the checker relies on. -/
def isWs (c : Char) : Bool := c.isWhitespace

/-- Rust `str::trim_start`. -/
def trimStartL (s : LC) : LC := s.dropWhile isWs

/-- Rust `str::trim_end`. -/
def trimEndL (s : LC) : LC := (s.reverse.dropWhile isWs).reverse

/-- Rust `str::trim`. -/
def trimL (s : LC) : LC := trimEndL (trimStartL s)

/-- Rust `str::to_lowercase` (character-wise; the checker only feeds it
hostnames and WHOIS label text, where per-char lowercasing agrees with
Rust's Unicode lowercasing). -/
def lowerL (s : LC) : LC := s.map Char.toLower

/-- Rust `str::split(sep)`: splitting the empty string yields one empty
piece, and every separator occurrence starts a new piece. -/
def splitChar (sep : Char) : LC → List LC
  | [] => [[]]
  | c :: cs =>
    let r := splitChar sep cs
    if c = sep then [] :: r
    else
      match r with
      | [] => [[c]]
      | h :: t => (c :: h) :: t

/-- Rust `str::starts_with(pat)`. -/
def startsWL (pat s : LC) : Bool := pat.isPrefixOf s

/-- Rust `str::contains(pat)` (substring search). -/
def hasSub : LC → LC → Bool
  | hay, pat =>
    pat.isPrefixOf hay ||
      match hay with
      | [] => false
      | _ :: t => hasSub t pat

/-- `DomainCheckerService::TXT_PATTERNS`. -/
def TXT_PATTERNS : List LC :=
  ["_dmarc".data, "_domainkey".data, "_acme-challenge".data, "_spf".data]

/-- `DomainCheckerService::EXPECTED_ERRORS`. -/
def EXPECTED_ERRORS : List LC :=
  ["timed out".data, "Connection timed out".data, "Connection refused".data,
   "tlsv1 unrecognized name".data, "tlsv1 alert internal error".data,
   "Name has no usable address".data, "failed to lookup address".data,
   "Host is unreachable".data]

/-- The expected-error test used in `run`'s TLS branch:
`EXPECTED_ERRORS.iter().any(|exp_err| err_str.contains(exp_err))`. -/
def isExpectedError (e : LC) : Bool := EXPECTED_ERRORS.any (fun pat => hasSub e pat)

/-- `DomainCheckerService::filter_domain`: trim, lowercase, rewrite a
leading `*.` to `test.`, reject hostnames with a reserved TXT label or
fewer than two dot-separated labels. -/
def filter_domain (domain : LC) : Option LC :=
  let d := lowerL (trimL domain)
  let d := if startsWL ['*', '.'] d then "test.".data ++ d.drop 2 else d
  let labels := splitChar '.' d
  if labels.any (fun lbl => TXT_PATTERNS.contains lbl) then none
  else if labels.length < 2 then none
  else some d

/-- `DomainCheckerService::to_root_domain`, parameterised by `addrRoot`,
the composite `parse_domain_name(&d).ok()?.root()?` of the `addr` crate
(public-suffix aware parsing; external library). -/
def to_root_domain (addrRoot : LC → Option LC) (domain : LC) : Option LC :=
  let d := lowerL (trimL domain)
  let d := if startsWL ['*', '.'] d then d.drop 2 else d
  match addrRoot d with
  | none => none
  | some root =>
    let parts := splitChar '.' root
    match parts.reverse with
    | last :: prev :: _ => some (prev ++ '.' :: last)
    | _ => some root

/-! ## WHOIS expiry parsing (`parse_whois_expiry`) -/

/-- Rust `str::lines`: split at `\n`, drop the optional final empty piece
produced by a trailing newline, and strip one trailing `\r` per line. -/
def rustLines (s : LC) : List LC :=
  let parts := splitChar '\n' s
  let parts := if parts.getLast? = some [] then parts.dropLast else parts
  parts.map (fun l => if l.getLast? = some '\x0d' then l.dropLast else l)

/-- The expiry-field labels scanned for, in source order. -/
def expiry_patterns : List LC :=
  ["paid-till:".data, "registry expiry date:".data, "expiry date:".data,
   "registrar registration expiration date:".data, "expiration date:".data,
   "expires:".data, "expire:".data, "expiration time:".data]

/-- The `chrono` format strings tried, in source order. -/
def whois_formats : List LC :=
  ["%Y-%m-%d %H:%M:%S".data, "%Y-%m-%d".data, "%Y.%m.%d".data,
   "%d-%b-%Y".data, "%d.%m.%Y".data, "%d/%m/%Y".data]

/-- The external `chrono` parsers invoked by `parse_whois_expiry`, as
abstract parameters: `rfc3339` is `DateTime::parse_from_rfc3339` converted
to a UTC timestamp; `dtParse s f` is `NaiveDateTime::parse_from_str(s, f)`
as a timestamp; `dParse s f` is `NaiveDate::parse_from_str(s, f)` as a day
number (days since the epoch). -/
structure WhoisParsers where
  rfc3339 : LC → Option Int
  dtParse : LC → LC → Option Int
  dParse : LC → LC → Option Int

/-- Timestamp of a parsed date at 23:59:59 UTC:
`date.and_hms_opt(23, 59, 59)` then `DateTime::from_naive_utc_and_offset`. -/
def dateAt235959 (day : Int) : Int := day * 86400 + 86399

/-- The inner `for format in &formats` loop: for each format try
`NaiveDateTime::parse_from_str`, then `NaiveDate::parse_from_str`. -/
def tryFormats (P : WhoisParsers) (date_str : LC) : List LC → Option Int
  | [] => none
  | fmt :: rest =>
    match P.dtParse date_str fmt with
    | some dt => some dt
    | none =>
      match P.dParse date_str fmt with
      | some d => some (dateAt235959 d)
      | none => tryFormats P date_str rest

/-- One parse attempt on a (trimmed) line: locate the first colon, trim the
remainder, try RFC3339, then the format list. -/
def lineAttempt (P : WhoisParsers) (line_trimmed : LC) : Option Int :=
  match line_trimmed.findIdx? (· = ':') with
  | none => none
  | some colon_pos =>
    let date_str := trimL (line_trimmed.drop (colon_pos + 1))
    match P.rfc3339 date_str with
    | some dt => some dt
    | none => tryFormats P date_str whois_formats

/-- The `for pattern in &expiry_patterns` loop over one line. -/
def patternLoop (P : WhoisParsers) (line_trimmed line_lower : LC) :
    List LC → Option Int
  | [] => none
  | pat :: rest =>
    if hasSub line_lower pat then
      match lineAttempt P line_trimmed with
      | some v => some v
      | none => patternLoop P line_trimmed line_lower rest
    else patternLoop P line_trimmed line_lower rest

/-- The `for line in whois_text.lines()` loop. -/
def lineLoop (P : WhoisParsers) : List LC → Option Int
  | [] => none
  | line :: rest =>
    let t := trimL line
    match patternLoop P t (lowerL t) expiry_patterns with
    | some v => some v
    | none => lineLoop P rest

/-- `DomainCheckerService::parse_whois_expiry`. -/
def parse_whois_expiry (P : WhoisParsers) (whois_text : LC) : Except LC Int :=
  match lineLoop P (rustLines whois_text) with
  | some v => Except.ok v
  | none => Except.error "Could not parse expiry date from WHOIS".data

/-- First `some` in a list of options. -/
def firstSome : List (Option Int) → Option Int
  | [] => none
  | o :: rest =>
    match o with
    | some v => some v
    | none => firstSome rest

/-- Modelled from the spec's wording of the parsing procedure: a line whose
trimmed lowercase form contains one of the labels has the substring after
its first colon parsed by attempting, in order, RFC3339, then each listed
format as a date-time, then the same list as date-only at 23:59:59 UTC; the
first successfully parsed timestamp over the line scan is the result, and
the function errors iff no line/format combination parses. -/
def specLineAttempt (P : WhoisParsers) (t : LC) : Option Int :=
  if expiry_patterns.any (fun pat => hasSub (lowerL t) pat) then
    match t.findIdx? (· = ':') with
    | none => none
    | some colon_pos =>
      match P.rfc3339 (trimL (t.drop (colon_pos + 1))) with
      | some v => some v
      | none =>
        match firstSome (whois_formats.map
            (fun f => P.dtParse (trimL (t.drop (colon_pos + 1))) f)) with
        | some v => some v
        | none =>
          (firstSome (whois_formats.map
            (fun f => P.dParse (trimL (t.drop (colon_pos + 1))) f))).map dateAt235959
  else none

/-- Modelled from the spec: the whole scan in the spec's order. -/
def whoisSpecParse (P : WhoisParsers) (whois_text : LC) : Except LC Int :=
  match firstSome ((rustLines whois_text).map (fun l => specLineAttempt P (trimL l))) with
  | some v => Except.ok v
  | none => Except.error "Could not parse expiry date from WHOIS".data

/-! ## The run pipeline (`DomainCheckerService::run`) -/

/-- `HashSet::insert` on a set modelled as a duplicate-free list in first
insertion order. -/
def insertU (xs : List LC) (x : LC) : List LC := if x ∈ xs then xs else xs ++ [x]

/-- `HashSet::extend`. -/
def extendU (xs ys : List LC) : List LC := ys.foldl insertU xs

/-- `iter().filter_map(..).collect::<HashSet<_>>()`. -/
def dedupU (xs : List LC) : List LC := extendU [] xs

/-- Notification entry for an expiring domain, the `json!` object built in
`run` (`expiration_date.to_rfc3339()` kept as the timestamp; rendering is
injective and irrelevant to the claims). -/
structure DomainEntry where
  hostname : LC
  expiration_date : Int
  days : Int
deriving DecidableEq, Repr

/-- Notification entry for an expiring certificate. -/
structure SslEntry where
  serial : LC
  issuer : LC
  days : Int
  hostname : LC
  expiration_date : Int
  more : Int
deriving DecidableEq, Repr

instance : Inhabited DomainEntry := ⟨⟨[], 0, 0⟩⟩

instance : Inhabited SslEntry := ⟨⟨[], [], 0, [], 0, 0⟩⟩

/-- `HashMap::insert` on a map modelled as an association list in first
insertion order: replace in place if the key is present, else append. -/
def insertAssoc {β : Type} : List (LC × β) → LC → β → List (LC × β)
  | [], k, v => [(k, v)]
  | p :: t, k, v => if p.1 = k then (k, v) :: t else p :: insertAssoc t k v

/-- `HashMap::get`. -/
def lookupA {β : Type} : List (LC × β) → LC → Option β
  | [], _ => none
  | p :: t, k => if p.1 = k then some p.2 else lookupA t k

/-- `chrono`: `expiration_date.signed_duration_since(now).num_days()`;
`num_days` truncates toward zero (Rust `i64` division). -/
def numDays (expiration now : Int) : Int := Int.tdiv (expiration - now) 86400

/-- Everything external to `run`: the configured sources' `get_domains`
outcomes, the `addr` crate, the two probes' network outcomes, the
notifiers' `commit` outcomes, and the clock. -/
structure Env where
  sources : List (LC × Except LC (List LC))
  addrRoot : LC → Option LC
  domainProbe : LC → Except LC Int
  sslProbe : LC → Except LC (Int × LC × LC)
  commitRes : Nat → Except LC Unit
  now : Int

/-- The service's configuration fields used by `run`. -/
structure Config where
  ssl_alarm_days : Int
  alarm_days : Int
  nNotifiers : Nat

/-- The source-loading loop: merge each successful source's domains into
the hostname set, collect a formatted error message per failing source. -/
def loadSources (env : Env) : List LC × List LC :=
  env.sources.foldl
    (fun acc src =>
      match src.2 with
      | Except.ok domains => (extendU acc.1 domains, acc.2)
      | Except.error e =>
        (acc.1,
         acc.2 ++ ["Ошибка загрузки из источника: ".data ++ src.1 ++ ".\n".data ++ e]))
    ([], [])

/-- The `"- {}"` formatting applied to a failed host before insertion. -/
def dashName (h : LC) : LC := '-' :: ' ' :: h

/-- One step of the domain-result loop: threshold fires on
`days < alarm_days || days < 3`; a probe error inserts the host into
`domain_failed` unconditionally. -/
def domainStep (env : Env) (alarm_days : Int)
    (acc : List (LC × DomainEntry) × List LC) (root : LC) :
    List (LC × DomainEntry) × List LC :=
  match env.domainProbe root with
  | Except.ok expiration_date =>
    let days := numDays expiration_date env.now
    if days < alarm_days ∨ days < 3 then
      (insertAssoc acc.1 root ⟨root, expiration_date, days⟩, acc.2)
    else acc
  | Except.error _ => (acc.1, insertU acc.2 (dashName root))

/-- The domain-result loop over all probed roots. -/
def domainPass (env : Env) (alarm_days : Int) (roots : List LC) :
    List (LC × DomainEntry) × List LC :=
  roots.foldl (domainStep env alarm_days) ([], [])

/-- One step of the TLS-result loop: threshold fires on
`days <= ssl_alarm_days || days <= 1`, entries are keyed by serial with the
`more` counter; an error inserts into `ssl_failed` only when no expected
substring occurs (the source performs the same insertion twice — a set
no-op — mirrored here). -/
def sslStep (env : Env) (ssl_alarm_days : Int)
    (acc : List (LC × SslEntry) × List LC) (hostname : LC) :
    List (LC × SslEntry) × List LC :=
  match env.sslProbe hostname with
  | Except.ok (expiration_date, serial, issuer) =>
    let days := numDays expiration_date env.now
    if days ≤ ssl_alarm_days ∨ days ≤ 1 then
      let more := ((lookupA acc.1 serial).map SslEntry.more).getD 0 + 1
      (insertAssoc acc.1 serial
        ⟨serial, issuer, days, hostname, expiration_date,
         if more > 1 then more else 1⟩,
       acc.2)
    else acc
  | Except.error e =>
    let acc := if !isExpectedError e then (acc.1, insertU acc.2 (dashName hostname)) else acc
    if isExpectedError e then acc
    else (acc.1, insertU acc.2 (dashName hostname))

/-- The TLS-result loop over all candidate hostnames. -/
def sslPass (env : Env) (ssl_alarm_days : Int) (hosts : List LC) :
    List (LC × SslEntry) × List LC :=
  hosts.foldl (sslStep env ssl_alarm_days) ([], [])

/-- `Vec::join("\n")`. -/
def joinNL (xs : List LC) : LC := List.intercalate ['\n'] xs

/-- The `domain_failed` summary message (`{:?}` debug rendering of the
singleton set abbreviated to its quoted element). -/
def domainFailMsg (s : List LC) : LC :=
  if s.length = 1 then
    "Ошибка проверки домена: \x7b\"".data ++ s.headI ++ "\"\x7d".data
  else
    "Ошибка проверки ".data ++ (toString s.length).data ++ " доменов\n".data ++ joinNL s

/-- The `ssl_failed` summary message. -/
def sslFailMsg (s : List LC) : LC :=
  if s.length = 1 then
    "Ошибка проверки сертификата: \x7b\"".data ++ s.headI ++ "\"\x7d".data
  else
    "Ошибка проверки ".data ++ (toString s.length).data ++ " SSL-сертификатов\n".data ++ joinNL s

/-- `sort_by_key(|v| v.days)` for domain entries: Rust's stable ascending
sort, modelled by stable insertion sort. -/
def sortDomainEntries (l : List DomainEntry) : List DomainEntry :=
  l.insertionSort (fun a b => a.days ≤ b.days)

/-- `sort_by_key(|v| v.days)` for certificate entries. -/
def sortSslEntries (l : List SslEntry) : List SslEntry :=
  l.insertionSort (fun a b => a.days ≤ b.days)

/-- One observable notifier interaction, tagged with the notifier's index
in registration order. -/
inductive Call where
  | exc : Nat → LC → Call
  | expiring : Nat → DomainEntry → Call
  | expiringSsl : Nat → SslEntry → Call
  | commit : Nat → Call
deriving DecidableEq, Repr

/-- `for notifier in &mut self.notifiers { notifier.exception(msg) }`. -/
def broadcastExc (n : Nat) (msg : LC) : List Call :=
  (List.range n).map (fun i => Call.exc i msg)

/-- One iteration of the commit loop: `commit()` is attempted on the
notifier; a failure is only logged (`tracing::error!`) and the loop
continues identically. -/
def commitStep (env : Env) (r : Except LC Unit × List Call) (i : Nat) :
    Except LC Unit × List Call :=
  match env.commitRes i with
  | Except.ok _ => (r.1, r.2 ++ [Call.commit i])
  | Except.error _ => (r.1, r.2 ++ [Call.commit i])

/-- The commit phase over every notifier; the function returns `Ok(())`
whatever the outcomes. -/
def commitPhase (env : Env) (n : Nat) : Except LC Unit × List Call :=
  (List.range n).foldl (commitStep env) (Except.ok (), [])

/-- The notifier indices receiving a `commit` call, in order. -/
def commitsOf (t : List Call) : List Nat :=
  t.filterMap (fun c => match c with | Call.commit i => some i | _ => none)

instance {ε α : Type} [DecidableEq ε] [DecidableEq α] : DecidableEq (Except ε α) := by
  intro a b
  cases a <;> cases b
  case error.error x y =>
    by_cases h : x = y
    · exact isTrue (h ▸ rfl)
    · exact isFalse (fun he => h (Except.error.inj he))
  case ok.ok x y =>
    by_cases h : x = y
    · exact isTrue (h ▸ rfl)
    · exact isFalse (fun he => h (Except.ok.inj he))
  case error.ok x y => exact isFalse (fun he => Except.noConfusion he)
  case ok.error x y => exact isFalse (fun he => Except.noConfusion he)

/-- Everything `run` produced, with its intermediate artifacts exposed. -/
structure RunOut where
  result : Except LC Unit
  trace : List Call
  hostnames : List LC
  sourceErrors : List LC
  roots : List LC
  sslHosts : List LC
  expiringDomains : List (LC × DomainEntry)
  domainFailed : List LC
  expiringSsl : List (LC × SslEntry)
  sslFailed : List LC
  domainList : List DomainEntry
  sslList : List SslEntry

/-- The deduplicated WHOIS probe targets derived from the hostname set. -/
def runRoots (env : Env) : List LC :=
  dedupU ((loadSources env).1.filterMap (to_root_domain env.addrRoot))

/-- The deduplicated TLS probe targets derived from the hostname set. -/
def runSslHosts (env : Env) : List LC :=
  dedupU ((loadSources env).1.filterMap filter_domain)

/-- The domain-result loop of `run`. -/
def runDomainPass (cfg : Config) (env : Env) : List (LC × DomainEntry) × List LC :=
  domainPass env cfg.alarm_days (runRoots env)

/-- The TLS-result loop of `run`. -/
def runSslPass (cfg : Config) (env : Env) : List (LC × SslEntry) × List LC :=
  sslPass env cfg.ssl_alarm_days (runSslHosts env)

/-- The early return taken when the merged hostname set is empty: the
source-error exceptions have already been routed, nothing else happens. -/
def runEmptyOut (cfg : Config) (env : Env) : RunOut :=
  { result := Except.ok (),
    trace := (loadSources env).2.flatMap (broadcastExc cfg.nNotifiers),
    hostnames := (loadSources env).1, sourceErrors := (loadSources env).2,
    roots := [], sslHosts := [], expiringDomains := [], domainFailed := [],
    expiringSsl := [], sslFailed := [], domainList := [], sslList := [] }

/-- The main path of `run`: probe both candidate sets, publish the two
failure summaries (when non-empty), then the entries sorted ascending by
days, then commit on every notifier. -/
def runMainOut (cfg : Config) (env : Env) : RunOut :=
  let dp := runDomainPass cfg env
  let sp := runSslPass cfg env
  let domainList := sortDomainEntries (dp.1.map Prod.snd)
  let sslList := sortSslEntries (sp.1.map Prod.snd)
  let cp := commitPhase env cfg.nNotifiers
  { result := cp.1,
    trace := (loadSources env).2.flatMap (broadcastExc cfg.nNotifiers) ++
      (if dp.2.isEmpty then [] else broadcastExc cfg.nNotifiers (domainFailMsg dp.2)) ++
      (if sp.2.isEmpty then [] else broadcastExc cfg.nNotifiers (sslFailMsg sp.2)) ++
      domainList.flatMap
        (fun e => (List.range cfg.nNotifiers).map (fun i => Call.expiring i e)) ++
      sslList.flatMap
        (fun e => (List.range cfg.nNotifiers).map (fun i => Call.expiringSsl i e)) ++
      cp.2,
    hostnames := (loadSources env).1, sourceErrors := (loadSources env).2,
    roots := runRoots env, sslHosts := runSslHosts env,
    expiringDomains := dp.1, domainFailed := dp.2,
    expiringSsl := sp.1, sslFailed := sp.2,
    domainList := domainList, sslList := sslList }

/-- `DomainCheckerService::run`.  Probe tasks are awaited together and
their results consumed in candidate order; panicking tasks (the skipped
`Err` arm of `join_all`) are outside this sequential model. -/
def run (cfg : Config) (env : Env) : RunOut :=
  if (loadSources env).1.isEmpty then runEmptyOut cfg env else runMainOut cfg env

/-- Modelled from the spec: `sslCandidateOf` as the specification words
it — the input is trimmed and lowercased and a leading `*.` is rewritten
to `test.`; the result is none whenever any dot-separated label exactly
equals one of the reserved TXT labels, and none whenever fewer than two
labels remain; otherwise the rewritten hostname is returned. -/
def sslCandidateOf (hostname : LC) : Option LC :=
  let d := lowerL (trimL hostname)
  let d := if startsWL ['*', '.'] d then "test.".data ++ d.drop 2 else d
  if ∃ lbl ∈ splitChar '.' d, lbl ∈ TXT_PATTERNS then none
  else if (splitChar '.' d).length < 2 then none
  else some d

/-- The normalisation `filter_domain` applies before its label checks. -/
def normHost (s : LC) : LC :=
  let d := lowerL (trimL s)
  if startsWL ['*', '.'] d then "test.".data ++ d.drop 2 else d

/-- The domain-side inclusion criterion of the aggregator. -/
def domainIncl (env : Env) (ad : Int) (r : LC) : Prop :=
  ∃ ts, env.domainProbe r = Except.ok ts ∧
    (numDays ts env.now < ad ∨ numDays ts env.now < 3)

/-- The certificate-side inclusion criterion for host `h` under serial `s`. -/
def sslInclB (env : Env) (sa : Int) (s : LC) (h : LC) : Bool :=
  match env.sslProbe h with
  | Except.ok (ts, ser, _) =>
    decide (ser = s) && decide (numDays ts env.now ≤ sa ∨ numDays ts env.now ≤ 1)
  | Except.error _ => false

/-- The `more` counter currently stored for a serial (0 when absent). -/
def moreAt (m : List (LC × SslEntry)) (s : LC) : Int :=
  ((lookupA m s).map SslEntry.more).getD 0

/-! ## Concrete environments used for counterexamples and examples -/

/-- A run whose only WHOIS probe fails with a timeout-classified error and
whose TLS probe fails with an expected error. -/
def c1Env : Env :=
  { sources := [("file".data, Except.ok ["example.com".data])],
    addrRoot := fun s => if s = "example.com".data then some "example.com".data else none,
    domainProbe := fun _ => Except.error "connection timed out".data,
    sslProbe := fun _ => Except.error "Connection refused".data,
    commitRes := fun _ => Except.ok (),
    now := 0 }

def c1Cfg : Config := { ssl_alarm_days := 30, alarm_days := 30, nNotifiers := 1 }

/-- A run whose single source fails, leaving the merged hostname set empty. -/
def c2Env : Env :=
  { sources := [("s".data, Except.error "boom".data)],
    addrRoot := fun _ => none,
    domainProbe := fun _ => Except.error [],
    sslProbe := fun _ => Except.error [],
    commitRes := fun _ => Except.ok (),
    now := 0 }

def c2Cfg : Config := { ssl_alarm_days := 30, alarm_days := 30, nNotifiers := 1 }

/-- A run with an all-successful but empty source. -/
def c2bEnv : Env :=
  { sources := [("s".data, Except.ok [])],
    addrRoot := fun _ => none,
    domainProbe := fun _ => Except.error [],
    sslProbe := fun _ => Except.error [],
    commitRes := fun _ => Except.ok (),
    now := 0 }

/-- Two roots whose WHOIS expiries lie 2 and 5 days ahead, probed with the
alarm threshold set to 0. -/
def c3Env : Env :=
  { sources := [("f".data, Except.ok ["a.two.com".data, "b.five.com".data])],
    addrRoot := fun s =>
      if s = "a.two.com".data then some "two.com".data
      else if s = "b.five.com".data then some "five.com".data
      else none,
    domainProbe := fun r =>
      if r = "two.com".data then Except.ok (2 * 86400)
      else if r = "five.com".data then Except.ok (5 * 86400)
      else Except.error "x".data,
    sslProbe := fun _ => Except.error "timed out".data,
    commitRes := fun _ => Except.ok (),
    now := 0 }

def c3Cfg : Config := { ssl_alarm_days := 0, alarm_days := 0, nNotifiers := 1 }

/-- Two hostnames answering with the same certificate serial. -/
def c4Env : Env :=
  { sources := [("f".data, Except.ok ["a.x.com".data, "b.x.com".data])],
    addrRoot := fun _ => none,
    domainProbe := fun _ => Except.ok (100 * 86400),
    sslProbe := fun _ => Except.ok (0, "AA".data, "Org".data),
    commitRes := fun _ => Except.ok (),
    now := 0 }

/-- A single hostname with that serial. -/
def c4bEnv : Env :=
  { sources := [("f".data, Except.ok ["a.x.com".data])],
    addrRoot := fun _ => none,
    domainProbe := fun _ => Except.ok (100 * 86400),
    sslProbe := fun _ => Except.ok (0, "AA".data, "Org".data),
    commitRes := fun _ => Except.ok (),
    now := 0 }

def c4Cfg : Config := { ssl_alarm_days := 30, alarm_days := 30, nNotifiers := 1 }

/-- Concrete `chrono` parsers for exercising the WHOIS scan: only the
date-only `%Y-%m-%d` parser recognises its input. -/
def c5P : WhoisParsers :=
  { rfc3339 := fun _ => none,
    dtParse := fun _ _ => none,
    dParse := fun s f =>
      if s = "2025-01-01".data ∧ f = "%Y-%m-%d".data then some 20089 else none }

def c5Text : LC := "Domain: x.com\nExpiry Date: 2025-01-01\n".data

/-! ## Character-level lemmas -/

theorem char_eq_of_toNat_eq {c d : Char} (h : c.toNat = d.toNat) : c = d :=
  Char.eq_of_val_eq (UInt32.toNat.inj h)

theorem toNat_toLower_upper (c : Char) (h : c.toNat ≥ 65 ∧ c.toNat ≤ 90) :
    c.toLower.toNat = c.toNat + 32 := by
  unfold Char.toLower
  rw [if_pos h]
  have hv : Nat.isValidChar (c.toNat + 32) := Or.inl (by omega)
  rw [Char.ofNat, dif_pos hv]
  rfl

theorem toLower_not_upper (c : Char) (h : ¬(c.toNat ≥ 65 ∧ c.toNat ≤ 90)) :
    c.toLower = c := by
  unfold Char.toLower
  rw [if_neg h]

theorem toLower_toLower (c : Char) : c.toLower.toLower = c.toLower := by
  by_cases h : c.toNat ≥ 65 ∧ c.toNat ≤ 90
  · have h1 := toNat_toLower_upper c h
    exact toLower_not_upper _ (by omega)
  · rw [toLower_not_upper c h, toLower_not_upper c h]

theorem isWs_eq_toNat (c : Char) :
    isWs c = (c.toNat = 32 || c.toNat = 9 || c.toNat = 13 || c.toNat = 10) := by
  have conv1 : ∀ (d : Char), decide (c = d) = decide (c.toNat = d.toNat) := by
    intro d
    by_cases h : c = d
    · subst h; simp
    · rw [decide_eq_false h, decide_eq_false (fun hn => h (char_eq_of_toNat_eq hn))]
  show Char.isWhitespace c = _
  unfold Char.isWhitespace
  rw [conv1 ' ', conv1 '\t', conv1 '\x0d', conv1 '\n']
  rfl

theorem isWs_toLower (c : Char) : isWs c.toLower = isWs c := by
  by_cases h : c.toNat ≥ 65 ∧ c.toNat ≤ 90
  · have h1 := toNat_toLower_upper c h
    rw [isWs_eq_toNat, isWs_eq_toNat, h1]
    have e1 : ∀ m n : Nat, m ≥ 65 → m ≤ 122 → n ≤ 32 → decide (m = n) = false := by
      intro m n hm hm2 hn
      exact decide_eq_false (by omega)
    rw [e1 _ 32 (by omega) (by omega) (by omega), e1 _ 9 (by omega) (by omega) (by omega),
        e1 _ 13 (by omega) (by omega) (by omega), e1 _ 10 (by omega) (by omega) (by omega),
        e1 _ 32 (by omega) (by omega) (by omega), e1 _ 9 (by omega) (by omega) (by omega),
        e1 _ 13 (by omega) (by omega) (by omega), e1 _ 10 (by omega) (by omega) (by omega)]
  · rw [toLower_not_upper c h]

theorem toLower_eq_dot {c : Char} (h : c.toLower = '.') : c = '.' := by
  by_cases hu : c.toNat ≥ 65 ∧ c.toNat ≤ 90
  · have h1 := toNat_toLower_upper c hu
    rw [h] at h1
    have hd : ('.').toNat = 46 := rfl
    exact absurd h1 (by omega)
  · rwa [toLower_not_upper c hu] at h

/-! ## Normalizer lemmas -/

theorem mem_trimL {c : Char} {s : LC} (h : c ∈ trimL s) : c ∈ s := by
  unfold trimL trimEndL trimStartL at h
  rw [List.mem_reverse] at h
  have h2 := (List.dropWhile_sublist (l := (List.dropWhile isWs s).reverse) isWs).mem h
  rw [List.mem_reverse] at h2
  exact (List.dropWhile_sublist isWs).mem h2

theorem mem_lowerL {c : Char} {s : LC} (h : c ∈ lowerL s) :
    ∃ d ∈ s, Char.toLower d = c := by
  unfold lowerL at h
  exact List.mem_map.mp h

theorem splitChar_ne_nil (sep : Char) (s : LC) : splitChar sep s ≠ [] := by
  cases s with
  | nil => simp [splitChar]
  | cons c cs =>
    simp only [splitChar]
    split
    · simp
    · split <;> simp

theorem splitChar_length (sep : Char) (s : LC) :
    (splitChar sep s).length = s.count sep + 1 := by
  induction s with
  | nil => simp [splitChar, List.count_nil]
  | cons c cs ih =>
    simp only [splitChar]
    by_cases h : c = sep
    · subst h
      rw [if_pos rfl, List.length_cons, ih, List.count_cons, if_pos (beq_self_eq_true c)]
    · rw [if_neg h]
      rcases hr : splitChar sep cs with _ | ⟨hd, tl⟩
      · exact absurd hr (splitChar_ne_nil sep cs)
      · have hlen := ih
        rw [hr] at hlen
        simp only [List.length_cons] at hlen ⊢
        rw [List.count_cons, if_neg (by simp only [beq_iff_eq]; exact fun hc => h hc)]
        omega

theorem no_dot_of_labels_lt_two {s : LC} (h : (splitChar '.' s).length < 2) :
    '.' ∉ s := by
  rw [splitChar_length] at h
  have hc : s.count '.' = 0 := by omega
  exact List.count_eq_zero.mp hc

theorem no_dot_norm {s : LC} (h : '.' ∉ s) : '.' ∉ lowerL (trimL s) := by
  intro hm
  obtain ⟨d, hd, hlow⟩ := mem_lowerL hm
  exact h (toLower_eq_dot hlow ▸ mem_trimL hd)

theorem not_startsW_wild {d : LC} (h : '.' ∉ d) : startsWL ['*', '.'] d = false := by
  cases d with
  | nil => rfl
  | cons c cs =>
    cases cs with
    | nil => simp [startsWL, List.isPrefixOf]
    | cons c2 cs2 =>
      simp only [startsWL, List.isPrefixOf, List.isPrefixOf_nil_left, Bool.and_eq_false_iff]
      by_cases h2 : c2 = '.'
      · exact absurd (h2 ▸ List.mem_cons_of_mem c (List.mem_cons_self c2 cs2)) h
      · right
        left
        exact beq_eq_false_iff_ne.mpr (Ne.symm h2)

/-- C7 core: a hostname without a dot (fewer than two labels) is rejected
by both normalizer functions, given the `addr`-crate contract that a
registrable root (public suffix plus one label) always contains a dot, so
`parse_domain_name(..).root()` yields nothing on a dotless input. -/
theorem both_none_of_labels_lt_two (ar : LC → Option LC)
    (har : ∀ t, '.' ∉ t → ar t = none) (s : LC)
    (h : (splitChar '.' s).length < 2) :
    filter_domain s = none ∧ to_root_domain ar s = none := by
  have hnd : '.' ∉ lowerL (trimL s) := no_dot_norm (no_dot_of_labels_lt_two h)
  constructor
  · have hlen : (splitChar '.' (lowerL (trimL s))).length = 1 := by
      rw [splitChar_length, List.count_eq_zero.mpr hnd]
    simp only [filter_domain, not_startsW_wild hnd, Bool.false_eq_true, if_false, hlen]
    split
    · rfl
    · rfl
  · simp only [to_root_domain, not_startsW_wild hnd, Bool.false_eq_true, if_false,
      har _ hnd]

/-- C6: `filter_domain` coincides with the specification's
`sslCandidateOf` on every input string. -/
theorem filter_domain_eq_sslCandidateOf (s : LC) :
    filter_domain s = sslCandidateOf s := by
  have main : ∀ d : LC,
      (if (splitChar '.' d).any (fun lbl => TXT_PATTERNS.contains lbl) = true then none
       else if (splitChar '.' d).length < 2 then (none : Option LC) else some d) =
      (if ∃ lbl ∈ splitChar '.' d, lbl ∈ TXT_PATTERNS then none
       else if (splitChar '.' d).length < 2 then none else some d) := by
    intro d
    by_cases hc : ∃ lbl ∈ splitChar '.' d, lbl ∈ TXT_PATTERNS
    · rw [if_pos hc, if_pos (by simpa using hc)]
    · rw [if_neg hc, if_neg (by simpa using hc)]
  simp only [filter_domain, sslCandidateOf]
  exact main _

/-- C7: for every hostname with fewer than two dot-separated labels,
`sslCandidateOf` (i.e. `filter_domain`) and `rootOf` (i.e.
`to_root_domain`) both return none, given the `addr`-crate contract that a
registrable root (public suffix plus at least one more label) always
contains a dot, so parsing a dotless input yields no root. -/
theorem lt_two_labels_both_none (ar : LC → Option LC)
    (har : ∀ t, '.' ∉ t → ar t = none) (s : LC)
    (h : (splitChar '.' s).length < 2) :
    filter_domain s = none ∧ to_root_domain ar s = none :=
  both_none_of_labels_lt_two ar har s h

/-- C7 witness: the single-label hostname `localhost` under the trivial
addr model. -/
theorem lt_two_labels_both_none_witness :
    (∀ t : LC, '.' ∉ t → (fun _ : LC => (none : Option LC)) t = none) ∧
    (splitChar '.' "localhost".data).length < 2 ∧
    filter_domain "localhost".data = none ∧
    to_root_domain (fun _ => none) "localhost".data = none :=
  ⟨fun _ _ => rfl, by decide,
   (lt_two_labels_both_none (fun _ => none) (fun _ _ => rfl) _ (by decide)).1,
   (lt_two_labels_both_none (fun _ => none) (fun _ _ => rfl) _ (by decide)).2⟩

/-! ## Idempotence of the normalisation (claim C10) -/

theorem dropWhile_self (p : Char → Bool) (l : LC) :
    (l.dropWhile p).dropWhile p = l.dropWhile p := by
  induction l with
  | nil => rfl
  | cons c cs ih =>
    rw [List.dropWhile_cons]
    split
    · exact ih
    · rename_i h
      rw [List.dropWhile_cons, if_neg h]

theorem dropWhile_eq_self_append {p : Char → Bool} {B C : LC}
    (h : (B ++ C).dropWhile p = B ++ C) : B.dropWhile p = B := by
  cases B with
  | nil => rfl
  | cons b bs =>
    rw [List.cons_append, List.dropWhile_cons] at h
    split at h
    · have hle := (List.dropWhile_sublist (l := bs ++ C) p).length_le
      rw [h] at hle
      simp at hle
    · rename_i hb
      rw [List.dropWhile_cons, if_neg hb]

theorem dropWhile_append_of_fix {p : Char → Bool} {B : LC}
    (hB : B.dropWhile p = B) (hne : B ≠ []) (C : LC) :
    (B ++ C).dropWhile p = B ++ C := by
  cases B with
  | nil => exact absurd rfl hne
  | cons b bs =>
    have hb : ¬ p b = true := by
      rw [List.dropWhile_cons] at hB
      intro hpb
      rw [if_pos hpb] at hB
      have hlen := congrArg List.length hB
      have hle := (List.dropWhile_sublist (l := bs) p).length_le
      simp at hlen
      omega
    rw [List.cons_append, List.dropWhile_cons, if_neg hb]

theorem trimStartL_lowerL (s : LC) : trimStartL (lowerL s) = lowerL (trimStartL s) := by
  unfold trimStartL lowerL
  rw [List.dropWhile_map, show (isWs ∘ Char.toLower) = isWs from funext isWs_toLower]

theorem trimEndL_lowerL (s : LC) : trimEndL (lowerL s) = lowerL (trimEndL s) := by
  unfold trimEndL lowerL
  rw [← List.map_reverse, List.dropWhile_map,
    show (isWs ∘ Char.toLower) = isWs from funext isWs_toLower, List.map_reverse]

theorem trimL_lowerL (s : LC) : trimL (lowerL s) = lowerL (trimL s) := by
  unfold trimL
  rw [trimStartL_lowerL, trimEndL_lowerL]

theorem trimEndL_trimEndL (s : LC) : trimEndL (trimEndL s) = trimEndL s := by
  unfold trimEndL
  rw [List.reverse_reverse, dropWhile_self]

theorem trimStartL_trimL (s : LC) : trimStartL (trimL s) = trimL s := by
  have hAfix : (trimStartL s).dropWhile isWs = trimStartL s := dropWhile_self isWs s
  have hsplit : trimStartL s =
      ((trimStartL s).reverse.dropWhile isWs).reverse ++
        ((trimStartL s).reverse.takeWhile isWs).reverse := by
    calc trimStartL s = (trimStartL s).reverse.reverse := (List.reverse_reverse _).symm
    _ = ((trimStartL s).reverse.takeWhile isWs ++ (trimStartL s).reverse.dropWhile isWs).reverse := by
        rw [List.takeWhile_append_dropWhile]
    _ = _ := by rw [List.reverse_append]
  rw [hsplit] at hAfix
  exact dropWhile_eq_self_append hAfix

theorem trimL_trimL (s : LC) : trimL (trimL s) = trimL s := by
  show trimEndL (trimStartL (trimL s)) = trimL s
  rw [trimStartL_trimL]
  show trimEndL (trimEndL (trimStartL s)) = trimL s
  rw [trimEndL_trimEndL]
  rfl

theorem lowerL_lowerL (s : LC) : lowerL (lowerL s) = lowerL s := by
  unfold lowerL
  rw [List.map_map, show (Char.toLower ∘ Char.toLower) = Char.toLower from funext toLower_toLower]

theorem filter_domain_as_normHost (s : LC) :
    filter_domain s =
      (if (splitChar '.' (normHost s)).any (fun lbl => TXT_PATTERNS.contains lbl) then none
       else if (splitChar '.' (normHost s)).length < 2 then none else some (normHost s)) := rfl

theorem trimEndL_of_reverse_fix {y : LC} (h : y.reverse.dropWhile isWs = y.reverse) :
    trimEndL y = y := by
  unfold trimEndL
  rw [h, List.reverse_reverse]

theorem reverse_fix_of_trimEndL {d : LC} (h : trimEndL d = d) :
    d.reverse.dropWhile isWs = d.reverse := by
  unfold trimEndL at h
  calc d.reverse.dropWhile isWs = (d.reverse.dropWhile isWs).reverse.reverse :=
        (List.reverse_reverse _).symm
  _ = d.reverse := by rw [h]

theorem normHost_normHost (s : LC) : normHost (normHost s) = normHost s := by
  have htrim : trimL (lowerL (trimL s)) = lowerL (trimL s) := by
    rw [trimL_lowerL, trimL_trimL]
  have hlow : lowerL (lowerL (trimL s)) = lowerL (trimL s) := lowerL_lowerL _
  by_cases hw : startsWL ['*', '.'] (lowerL (trimL s)) = true
  · obtain ⟨t, ht⟩ := List.isPrefixOf_iff_prefix.mp hw
    have hy : normHost s = "test.".data ++ t := by
      unfold normHost
      rw [if_pos hw, ← ht]
      rfl
    rcases t with _ | ⟨c, t2⟩
    · rw [hy]
      decide
    · set tt : LC := c :: t2 with htt
      -- trailing-side fixpoint of the tail `tt`
      have hdfix : (lowerL (trimL s)).reverse.dropWhile isWs = (lowerL (trimL s)).reverse := by
        apply reverse_fix_of_trimEndL
        have hstart : trimStartL (lowerL (trimL s)) = lowerL (trimL s) := by
          rw [← ht]
          show List.dropWhile isWs ('*' :: ('.' :: tt)) = ('*' :: ('.' :: tt))
          rw [List.dropWhile_cons, if_neg (by decide)]
        calc trimEndL (lowerL (trimL s)) = trimEndL (trimStartL (lowerL (trimL s))) := by
              rw [hstart]
        _ = trimL (lowerL (trimL s)) := rfl
        _ = lowerL (trimL s) := htrim
      have hrev : (lowerL (trimL s)).reverse = tt.reverse ++ ['.', '*'] := by
        rw [← ht]
        show (['*', '.'] ++ tt).reverse = _
        rw [List.reverse_append]
        rfl
      rw [hrev] at hdfix
      have httfix : tt.reverse.dropWhile isWs = tt.reverse := dropWhile_eq_self_append hdfix
      have httne : tt.reverse ≠ [] := by
        rw [ne_eq, List.reverse_eq_nil_iff]
        simp [htt]
      -- trim is the identity on y
      have hytrim : trimL ("test.".data ++ tt) = "test.".data ++ tt := by
        have hfront : trimStartL ("test.".data ++ tt) = "test.".data ++ tt := by
          show List.dropWhile isWs ('t' :: ("est.".data ++ tt)) = ('t' :: ("est.".data ++ tt))
          rw [List.dropWhile_cons, if_neg (by decide)]
        have hback : trimEndL ("test.".data ++ tt) = "test.".data ++ tt := by
          apply trimEndL_of_reverse_fix
          rw [List.reverse_append]
          exact dropWhile_append_of_fix httfix httne _
        show trimEndL (trimStartL ("test.".data ++ tt)) = _
        rw [hfront, hback]
      -- lowercase is the identity on y
      have hylow : lowerL ("test.".data ++ tt) = "test.".data ++ tt := by
        have hlt : lowerL tt = tt := by
          have h1 : lowerL (['*', '.'] ++ tt) = ['*', '.'] ++ tt := by
            rw [ht]; exact hlow
          have h2 : lowerL (['*', '.'] ++ tt) = ['*', '.'] ++ lowerL tt := by
            unfold lowerL
            rw [List.map_append]
            rfl
          rw [h2] at h1
          exact List.append_cancel_left h1
        unfold lowerL
        rw [List.map_append]
        unfold lowerL at hlt
        rw [hlt]
        rfl
      -- y is not wildcard-prefixed
      have hyw : startsWL ['*', '.'] ("test.".data ++ tt) = false := by
        show List.isPrefixOf ['*', '.'] ('t' :: ("est.".data ++ tt)) = false
        simp [List.isPrefixOf]
      rw [hy]
      unfold normHost
      rw [hytrim, hylow]
      show (if startsWL ['*', '.'] ("test.".data ++ tt) = true then
          "test.".data ++ List.drop 2 ("test.".data ++ tt)
        else "test.".data ++ tt) = "test.".data ++ tt
      rw [hyw]
      simp
  · have hy : normHost s = lowerL (trimL s) := by
      unfold normHost
      show (if startsWL ['*', '.'] (lowerL (trimL s)) = true then
          "test.".data ++ List.drop 2 (lowerL (trimL s))
        else lowerL (trimL s)) = lowerL (trimL s)
      rw [if_neg hw]
    rw [hy]
    unfold normHost
    rw [htrim, hlow]
    show (if startsWL ['*', '.'] (lowerL (trimL s)) = true then
        "test.".data ++ List.drop 2 (lowerL (trimL s))
      else lowerL (trimL s)) = lowerL (trimL s)
    rw [if_neg hw]

/-- C10: `sslCandidateOf` (i.e. `filter_domain`) is idempotent — every
produced candidate is a fixed point: already trimmed, lowercase, not
wildcard-prefixed, free of reserved TXT labels, with at least two labels. -/
theorem filter_domain_idem (x y : LC) (h : filter_domain x = some y) :
    filter_domain y = some y := by
  rw [filter_domain_as_normHost] at h
  by_cases hTXT : (splitChar '.' (normHost x)).any (fun lbl => TXT_PATTERNS.contains lbl) = true
  · rw [if_pos hTXT] at h
    exact absurd h (by simp)
  · rw [if_neg hTXT] at h
    by_cases hlen : (splitChar '.' (normHost x)).length < 2
    · rw [if_pos hlen] at h
      exact absurd h (by simp)
    · rw [if_neg hlen] at h
      have hy : y = normHost x := (Option.some.inj h).symm
      have hfix : normHost y = y := by rw [hy, normHost_normHost]
      rw [filter_domain_as_normHost, hfix, hy]
      rw [if_neg hTXT, if_neg hlen]

/-- C10 witness: the wildcard hostname `" *.Example.COM"` normalises to
`test.example.com`, which is its own candidate. -/
theorem filter_domain_idem_witness :
    filter_domain " *.Example.COM".data = some "test.example.com".data ∧
    filter_domain "test.example.com".data = some "test.example.com".data :=
  ⟨by decide, filter_domain_idem " *.Example.COM".data "test.example.com".data (by decide)⟩

/-! ## Set and association-list lemmas for the run pipeline -/

theorem mem_insertU {xs : List LC} {x y : LC} :
    y ∈ insertU xs x ↔ y ∈ xs ∨ y = x := by
  unfold insertU
  split
  · rename_i h
    constructor
    · exact Or.inl
    · rintro (hy | rfl)
      · exact hy
      · exact h
  · simp [List.mem_append]

theorem lookupA_insertAssoc {β : Type} (m : List (LC × β)) (k k' : LC) (v : β) :
    lookupA (insertAssoc m k v) k' = if k' = k then some v else lookupA m k' := by
  induction m with
  | nil =>
    show (if k = k' then some v else none) = if k' = k then some v else none
    by_cases h : k' = k
    · rw [if_pos h.symm, if_pos h]
    · rw [if_neg (fun he => h he.symm), if_neg h]
  | cons p t ih =>
    show lookupA (if p.1 = k then (k, v) :: t else p :: insertAssoc t k v) k' = _
    by_cases hp : p.1 = k
    · rw [if_pos hp]
      show (if k = k' then some v else lookupA t k') = _
      by_cases hk : k' = k
      · rw [if_pos hk.symm, if_pos hk]
      · rw [if_neg (fun he => hk he.symm), if_neg hk]
        show _ = if p.1 = k' then some p.2 else lookupA t k'
        rw [if_neg (fun he : p.1 = k' => hk (he.symm.trans hp))]
    · rw [if_neg hp]
      show (if p.1 = k' then some p.2 else lookupA (insertAssoc t k v) k') = _
      by_cases hpk : p.1 = k'
      · rw [if_pos hpk, if_neg (fun he : k' = k => hp (hpk.trans he))]
        show _ = if p.1 = k' then some p.2 else lookupA t k'
        rw [if_pos hpk]
      · rw [if_neg hpk, ih]
        by_cases hk : k' = k
        · rw [if_pos hk, if_pos hk]
        · rw [if_neg hk, if_neg hk]
          show _ = if p.1 = k' then some p.2 else lookupA t k'
          rw [if_neg hpk]

theorem keys_insertAssoc_mem {β : Type} (m : List (LC × β)) (k k' : LC) (v : β) :
    k' ∈ (insertAssoc m k v).map Prod.fst ↔ k' ∈ m.map Prod.fst ∨ k' = k := by
  induction m with
  | nil => simp [insertAssoc]
  | cons p t ih =>
    simp only [insertAssoc]
    by_cases hp : p.1 = k
    · rw [if_pos hp]
      simp only [List.map_cons, List.mem_cons]
      constructor
      · rintro (rfl | hm)
        · exact Or.inr rfl
        · exact Or.inl (Or.inr hm)
      · rintro ((rfl | hm) | rfl)
        · exact Or.inl hp
        · exact Or.inr hm
        · exact Or.inl rfl
    · rw [if_neg hp]
      simp only [List.map_cons, List.mem_cons, ih]
      tauto

theorem keys_nodup_insertAssoc {β : Type} {m : List (LC × β)} (k : LC) (v : β)
    (h : (m.map Prod.fst).Nodup) : ((insertAssoc m k v).map Prod.fst).Nodup := by
  induction m with
  | nil => simp [insertAssoc]
  | cons p t ih =>
    simp only [insertAssoc]
    rw [List.map_cons, List.nodup_cons] at h
    by_cases hp : p.1 = k
    · rw [if_pos hp]
      rw [List.map_cons, List.nodup_cons]
      exact ⟨hp ▸ h.1, h.2⟩
    · rw [if_neg hp]
      rw [List.map_cons, List.nodup_cons]
      refine ⟨?_, ih h.2⟩
      rw [keys_insertAssoc_mem]
      rintro (hm | rfl)
      · exact h.1 hm
      · exact hp rfl

theorem lookupA_isSome_of_mem_keys {β : Type} {m : List (LC × β)} {k : LC}
    (h : k ∈ m.map Prod.fst) : ∃ e, lookupA m k = some e := by
  induction m with
  | nil => simp at h
  | cons p t ih =>
    simp only [lookupA]
    by_cases hp : p.1 = k
    · exact ⟨p.2, by rw [if_pos hp]⟩
    · rw [if_neg hp]
      rw [List.map_cons, List.mem_cons] at h
      exact ih (h.resolve_left (fun he => hp he.symm))

theorem mem_keys_of_lookupA {β : Type} {m : List (LC × β)} {k : LC} {e : β}
    (h : lookupA m k = some e) : k ∈ m.map Prod.fst := by
  induction m with
  | nil => simp [lookupA] at h
  | cons p t ih =>
    simp only [lookupA] at h
    by_cases hp : p.1 = k
    · exact List.mem_map.mpr ⟨p, List.mem_cons_self p t, hp⟩
    · rw [if_neg hp] at h
      exact List.mem_cons_of_mem _ (ih h)

theorem countP_eq_one_of_nodup {l : List LC} {k : LC}
    (hnd : l.Nodup) (hmem : k ∈ l) : l.countP (fun x => x = k) = 1 := by
  induction l with
  | nil => simp at hmem
  | cons a t ih =>
    rw [List.nodup_cons] at hnd
    rw [List.countP_cons]
    rcases List.mem_cons.mp hmem with rfl | hm
    · have ht : t.countP (fun x => x = k) = 0 := by
        rw [List.countP_eq_zero]
        intro x hx
        simp only [decide_eq_true_eq]
        exact fun he => hnd.1 (he ▸ hx)
      simp [ht]
    · have ha : ¬(a = k) := fun he => hnd.1 (he ▸ hm)
      rw [ih hnd.2 hm]
      simp [ha]

theorem countP_keys_eq_one {β : Type} {m : List (LC × β)} {k : LC}
    (hnd : (m.map Prod.fst).Nodup) (hmem : k ∈ m.map Prod.fst) :
    m.countP (fun p => p.1 = k) = 1 := by
  have h1 : m.countP (fun p => p.1 = k) = (m.map Prod.fst).countP (fun x => x = k) := by
    rw [List.countP_map]
    rfl
  rw [h1]
  exact countP_eq_one_of_nodup hnd hmem

/-! ## Characterisations of the two result-processing passes -/

theorem domainFold_failed_mem (env : Env) (ad : Int) (roots : List LC)
    (acc : List (LC × DomainEntry) × List LC) (x : LC) :
    x ∈ (roots.foldl (domainStep env ad) acc).2 ↔
      x ∈ acc.2 ∨ ∃ r ∈ roots, x = dashName r ∧ ∃ e, env.domainProbe r = Except.error e := by
  induction roots generalizing acc with
  | nil => simp
  | cons r rest ih =>
    rw [List.foldl_cons, ih]
    simp only [List.mem_cons]
    cases hpr : env.domainProbe r with
    | ok ts =>
      have hstep : (domainStep env ad acc r).2 = acc.2 := by
        simp only [domainStep, hpr]
        split <;> rfl
      rw [hstep]
      constructor
      · rintro (hx | ⟨r', hr', hx⟩)
        · exact Or.inl hx
        · exact Or.inr ⟨r', Or.inr hr', hx⟩
      · rintro (hx | ⟨r', (rfl | hr'), hx, e, he⟩)
        · exact Or.inl hx
        · rw [hpr] at he
          cases he
        · exact Or.inr ⟨r', hr', hx, e, he⟩
    | error e =>
      have hstep : (domainStep env ad acc r).2 = insertU acc.2 (dashName r) := by
        simp only [domainStep, hpr]
      rw [hstep]
      constructor
      · rintro (hx | ⟨r', hr', hx⟩)
        · rcases mem_insertU.mp hx with hx2 | rfl
          · exact Or.inl hx2
          · exact Or.inr ⟨r, Or.inl rfl, rfl, e, hpr⟩
        · exact Or.inr ⟨r', Or.inr hr', hx⟩
      · rintro (hx | ⟨r', (rfl | hr'), hx, e2, he⟩)
        · exact Or.inl (mem_insertU.mpr (Or.inl hx))
        · exact Or.inl (mem_insertU.mpr (Or.inr hx))
        · exact Or.inr ⟨r', hr', hx, e2, he⟩

theorem domainFold_keys_mem (env : Env) (ad : Int) (roots : List LC)
    (acc : List (LC × DomainEntry) × List LC) (r : LC) :
    r ∈ (roots.foldl (domainStep env ad) acc).1.map Prod.fst ↔
      r ∈ acc.1.map Prod.fst ∨ (r ∈ roots ∧ domainIncl env ad r) := by
  induction roots generalizing acc with
  | nil => simp
  | cons r0 rest ih =>
    rw [List.foldl_cons, ih]
    simp only [List.mem_cons]
    cases hpr : env.domainProbe r0 with
    | ok ts =>
      by_cases hcrit : numDays ts env.now < ad ∨ numDays ts env.now < 3
      · have hstep : (domainStep env ad acc r0).1 =
            insertAssoc acc.1 r0 ⟨r0, ts, numDays ts env.now⟩ := by
          simp only [domainStep, hpr]
          rw [if_pos hcrit]
        rw [hstep]
        constructor
        · rintro (hk | ⟨hr, hincl⟩)
          · rcases (keys_insertAssoc_mem _ _ _ _).mp hk with hk2 | rfl
            · exact Or.inl hk2
            · exact Or.inr ⟨Or.inl rfl, ts, hpr, hcrit⟩
          · exact Or.inr ⟨Or.inr hr, hincl⟩
        · rintro (hk | ⟨(rfl | hr), hincl⟩)
          · exact Or.inl ((keys_insertAssoc_mem _ _ _ _).mpr (Or.inl hk))
          · exact Or.inl ((keys_insertAssoc_mem _ _ _ _).mpr (Or.inr rfl))
          · exact Or.inr ⟨hr, hincl⟩
      · have hstep : (domainStep env ad acc r0).1 = acc.1 := by
          simp only [domainStep, hpr]
          rw [if_neg hcrit]
        rw [hstep]
        constructor
        · rintro (hk | ⟨hr, hincl⟩)
          · exact Or.inl hk
          · exact Or.inr ⟨Or.inr hr, hincl⟩
        · rintro (hk | ⟨(rfl | hr), hincl⟩)
          · exact Or.inl hk
          · obtain ⟨ts2, hts2, hc2⟩ := hincl
            rw [hpr] at hts2
            cases hts2
            exact absurd hc2 hcrit
          · exact Or.inr ⟨hr, hincl⟩
    | error e =>
      have hstep : (domainStep env ad acc r0).1 = acc.1 := by
        simp only [domainStep, hpr]
      rw [hstep]
      constructor
      · rintro (hk | ⟨hr, hincl⟩)
        · exact Or.inl hk
        · exact Or.inr ⟨Or.inr hr, hincl⟩
      · rintro (hk | ⟨(rfl | hr), hincl⟩)
        · exact Or.inl hk
        · obtain ⟨ts2, hts2, _⟩ := hincl
          rw [hpr] at hts2
          cases hts2
        · exact Or.inr ⟨hr, hincl⟩

theorem insertU_idem (s : List LC) (x : LC) : insertU (insertU s x) x = insertU s x := by
  show (if x ∈ insertU s x then insertU s x else insertU s x ++ [x]) = insertU s x
  rw [if_pos (mem_insertU.mpr (Or.inr rfl))]

theorem sslStep_err (env : Env) (sa : Int) (acc : List (LC × SslEntry) × List LC)
    (h : LC) (e : LC) (hpr : env.sslProbe h = Except.error e) :
    sslStep env sa acc h =
      if isExpectedError e then acc else (acc.1, insertU acc.2 (dashName h)) := by
  simp only [sslStep, hpr]
  by_cases hexp : isExpectedError e
  · simp [hexp]
  · simp [hexp, insertU_idem]

theorem sslFold_failed_mem (env : Env) (sa : Int) (hosts : List LC)
    (acc : List (LC × SslEntry) × List LC) (x : LC) :
    x ∈ (hosts.foldl (sslStep env sa) acc).2 ↔
      x ∈ acc.2 ∨ ∃ h ∈ hosts, x = dashName h ∧
        ∃ e, env.sslProbe h = Except.error e ∧ isExpectedError e = false := by
  induction hosts generalizing acc with
  | nil => simp
  | cons h rest ih =>
    rw [List.foldl_cons, ih]
    simp only [List.mem_cons]
    cases hpr : env.sslProbe h with
    | ok v =>
      have hstep : (sslStep env sa acc h).2 = acc.2 := by
        obtain ⟨ts, ser, iss⟩ := v
        simp only [sslStep, hpr]
        split <;> rfl
      rw [hstep]
      constructor
      · rintro (hx | ⟨h', hh', hx⟩)
        · exact Or.inl hx
        · exact Or.inr ⟨h', Or.inr hh', hx⟩
      · rintro (hx | ⟨h', (rfl | hh'), hx, e, he, hee⟩)
        · exact Or.inl hx
        · rw [hpr] at he
          cases he
        · exact Or.inr ⟨h', hh', hx, e, he, hee⟩
    | error e =>
      rw [sslStep_err env sa acc h e hpr]
      by_cases hexp : isExpectedError e
      · rw [if_pos hexp]
        constructor
        · rintro (hx | ⟨h', hh', hx⟩)
          · exact Or.inl hx
          · exact Or.inr ⟨h', Or.inr hh', hx⟩
        · rintro (hx | ⟨h', (rfl | hh'), hx, e2, he2, hee2⟩)
          · exact Or.inl hx
          · rw [hpr] at he2
            cases he2
            rw [hexp] at hee2
            cases hee2
          · exact Or.inr ⟨h', hh', hx, e2, he2, hee2⟩
      · rw [if_neg hexp]
        constructor
        · rintro (hx | ⟨h', hh', hx⟩)
          · rcases mem_insertU.mp hx with hx2 | rfl
            · exact Or.inl hx2
            · exact Or.inr ⟨h, Or.inl rfl, rfl, e, hpr, Bool.eq_false_iff.mpr hexp⟩
          · exact Or.inr ⟨h', Or.inr hh', hx⟩
        · rintro (hx | ⟨h', (rfl | hh'), hx, e2, he2, hee2⟩)
          · exact Or.inl (mem_insertU.mpr (Or.inl hx))
          · exact Or.inl (mem_insertU.mpr (Or.inr hx))
          · exact Or.inr ⟨h', hh', hx, e2, he2, hee2⟩

theorem sslFold_keys_mem (env : Env) (sa : Int) (hosts : List LC)
    (acc : List (LC × SslEntry) × List LC) (s : LC) :
    s ∈ (hosts.foldl (sslStep env sa) acc).1.map Prod.fst ↔
      s ∈ acc.1.map Prod.fst ∨ ∃ h ∈ hosts, sslInclB env sa s h = true := by
  induction hosts generalizing acc with
  | nil => simp
  | cons h rest ih =>
    rw [List.foldl_cons, ih]
    simp only [List.mem_cons]
    cases hpr : env.sslProbe h with
    | ok v =>
      obtain ⟨ts, ser, iss⟩ := v
      by_cases hcrit : numDays ts env.now ≤ sa ∨ numDays ts env.now ≤ 1
      · have hstep : (sslStep env sa acc h).1 =
            insertAssoc acc.1 ser
              ⟨ser, iss, numDays ts env.now, h, ts,
               if ((lookupA acc.1 ser).map SslEntry.more).getD 0 + 1 > 1 then
                 ((lookupA acc.1 ser).map SslEntry.more).getD 0 + 1 else 1⟩ := by
          simp only [sslStep, hpr]
          rw [if_pos hcrit]
        have hB : sslInclB env sa s h = decide (ser = s) := by
          simp only [sslInclB, hpr]
          rw [decide_eq_true hcrit, Bool.and_true]
        rw [hstep]
        constructor
        · rintro (hk | ⟨h', hh', hi⟩)
          · rcases (keys_insertAssoc_mem _ _ _ _).mp hk with hk2 | rfl
            · exact Or.inl hk2
            · exact Or.inr ⟨h, Or.inl rfl, by rw [hB]; exact decide_eq_true rfl⟩
          · exact Or.inr ⟨h', Or.inr hh', hi⟩
        · rintro (hk | ⟨h', (rfl | hh'), hi⟩)
          · exact Or.inl ((keys_insertAssoc_mem _ _ _ _).mpr (Or.inl hk))
          · rw [hB] at hi
            exact Or.inl ((keys_insertAssoc_mem _ _ _ _).mpr (Or.inr (of_decide_eq_true hi).symm))
          · exact Or.inr ⟨h', hh', hi⟩
      · have hstep : (sslStep env sa acc h).1 = acc.1 := by
          simp only [sslStep, hpr]
          rw [if_neg hcrit]
        have hB : sslInclB env sa s h = false := by
          simp only [sslInclB, hpr]
          rw [decide_eq_false hcrit, Bool.and_false]
        rw [hstep]
        constructor
        · rintro (hk | ⟨h', hh', hi⟩)
          · exact Or.inl hk
          · exact Or.inr ⟨h', Or.inr hh', hi⟩
        · rintro (hk | ⟨h', (rfl | hh'), hi⟩)
          · exact Or.inl hk
          · rw [hB] at hi
            cases hi
          · exact Or.inr ⟨h', hh', hi⟩
    | error e =>
      have hstep : (sslStep env sa acc h).1 = acc.1 := by
        rw [sslStep_err env sa acc h e hpr]
        split <;> rfl
      have hB : sslInclB env sa s h = false := by
        simp only [sslInclB, hpr]
      rw [hstep]
      constructor
      · rintro (hk | ⟨h', hh', hi⟩)
        · exact Or.inl hk
        · exact Or.inr ⟨h', Or.inr hh', hi⟩
      · rintro (hk | ⟨h', (rfl | hh'), hi⟩)
        · exact Or.inl hk
        · rw [hB] at hi
          cases hi
        · exact Or.inr ⟨h', hh', hi⟩

theorem sslFold_keys_nodup (env : Env) (sa : Int) (hosts : List LC)
    (acc : List (LC × SslEntry) × List LC) (hnd : (acc.1.map Prod.fst).Nodup) :
    ((hosts.foldl (sslStep env sa) acc).1.map Prod.fst).Nodup := by
  induction hosts generalizing acc with
  | nil => exact hnd
  | cons h rest ih =>
    rw [List.foldl_cons]
    apply ih
    cases hpr : env.sslProbe h with
    | ok v =>
      obtain ⟨ts, ser, iss⟩ := v
      simp only [sslStep, hpr]
      split
      · exact keys_nodup_insertAssoc _ _ hnd
      · exact hnd
    | error e =>
      rw [sslStep_err env sa acc h e hpr]
      split
      · exact hnd
      · exact hnd

theorem sslFold_more (env : Env) (sa : Int) (hosts : List LC) :
    ∀ acc : List (LC × SslEntry) × List LC,
      (∀ s e, lookupA acc.1 s = some e → 1 ≤ e.more) →
      (∀ s e, lookupA (hosts.foldl (sslStep env sa) acc).1 s = some e → 1 ≤ e.more) ∧
      (∀ s, moreAt (hosts.foldl (sslStep env sa) acc).1 s =
        moreAt acc.1 s + (hosts.countP (sslInclB env sa s) : Int)) := by
  induction hosts with
  | nil =>
    intro acc hpos
    refine ⟨hpos, fun s => ?_⟩
    rw [List.foldl_nil, List.countP_nil]
    omega
  | cons h rest ih =>
    intro acc hpos
    rw [List.foldl_cons]
    have hnonneg : ∀ s, 0 ≤ moreAt acc.1 s := by
      intro s
      unfold moreAt
      cases hl : lookupA acc.1 s with
      | none => simp
      | some e =>
        have h1 := hpos s e hl
        show (0 : Int) ≤ e.more
        omega
    cases hpr : env.sslProbe h with
    | ok v =>
      obtain ⟨ts, ser, iss⟩ := v
      by_cases hcrit : numDays ts env.now ≤ sa ∨ numDays ts env.now ≤ 1
      · have hstep : (sslStep env sa acc h).1 =
            insertAssoc acc.1 ser
              ⟨ser, iss, numDays ts env.now, h, ts,
               if ((lookupA acc.1 ser).map SslEntry.more).getD 0 + 1 > 1 then
                 ((lookupA acc.1 ser).map SslEntry.more).getD 0 + 1 else 1⟩ := by
          simp only [sslStep, hpr]
          rw [if_pos hcrit]
        have hmore : (if ((lookupA acc.1 ser).map SslEntry.more).getD 0 + 1 > 1 then
              ((lookupA acc.1 ser).map SslEntry.more).getD 0 + 1 else 1) =
            moreAt acc.1 ser + 1 := by
          have h0 := hnonneg ser
          unfold moreAt at h0 ⊢
          split
          · rfl
          · omega
        have hpos2 : ∀ s e, lookupA (sslStep env sa acc h).1 s = some e → 1 ≤ e.more := by
          intro s e hl
          rw [hstep, lookupA_insertAssoc] at hl
          by_cases hs : s = ser
          · rw [if_pos hs] at hl
            cases hl
            simp only [hmore]
            have := hnonneg ser
            omega
          · rw [if_neg hs] at hl
            exact hpos s e hl
        obtain ⟨ihpos, ihcount⟩ := ih (sslStep env sa acc h) hpos2
        refine ⟨ihpos, fun s => ?_⟩
        rw [ihcount s]
        have hBval : sslInclB env sa s h = decide (ser = s) := by
          simp only [sslInclB, hpr]
          rw [decide_eq_true hcrit, Bool.and_true]
        rw [List.countP_cons, hBval]
        have hAt : moreAt (sslStep env sa acc h).1 s =
            moreAt acc.1 s + (if ser = s then 1 else 0) := by
          unfold moreAt
          rw [hstep, lookupA_insertAssoc]
          by_cases hs : s = ser
          · subst hs
            rw [if_pos rfl, if_pos rfl]
            show (if (Option.map SslEntry.more (lookupA acc.1 s)).getD 0 + 1 > 1 then
                (Option.map SslEntry.more (lookupA acc.1 s)).getD 0 + 1 else 1) =
              (Option.map SslEntry.more (lookupA acc.1 s)).getD 0 + 1
            have h0 := hnonneg s
            unfold moreAt at h0
            split
            · rfl
            · omega
          · rw [if_neg hs, if_neg (fun he => hs he.symm)]
            omega
        rw [hAt]
        by_cases hs : ser = s
        · rw [if_pos hs, if_pos (decide_eq_true hs)]
          push_cast
          omega
        · rw [if_neg hs, if_neg (by rw [decide_eq_false hs]; exact Bool.false_ne_true)]
          push_cast
          omega
      · have hstep : sslStep env sa acc h = acc := by
          simp only [sslStep, hpr]
          rw [if_neg hcrit]
        obtain ⟨ihpos, ihcount⟩ := ih (sslStep env sa acc h) (by rw [hstep]; exact hpos)
        refine ⟨ihpos, fun s => ?_⟩
        rw [ihcount s, hstep, List.countP_cons]
        have hB : sslInclB env sa s h = false := by
          simp only [sslInclB, hpr]
          rw [decide_eq_false hcrit, Bool.and_false]
        rw [hB]
        push_cast
        omega
    | error e =>
      have hstep : (sslStep env sa acc h).1 = acc.1 := by
        rw [sslStep_err env sa acc h e hpr]
        split <;> rfl
      have hpos2 : ∀ s e2, lookupA (sslStep env sa acc h).1 s = some e2 → 1 ≤ e2.more := by
        intro s e2 hl
        rw [hstep] at hl
        exact hpos s e2 hl
      obtain ⟨ihpos, ihcount⟩ := ih (sslStep env sa acc h) hpos2
      refine ⟨ihpos, fun s => ?_⟩
      rw [ihcount s, hstep, List.countP_cons]
      have hB : sslInclB env sa s h = false := by
        simp only [sslInclB, hpr]
      rw [hB]
      push_cast
      omega

/-! ## Commit phase and run-level lemmas -/

theorem commitStep_eq (env : Env) (r : Except LC Unit × List Call) (i : Nat) :
    commitStep env r i = (r.1, r.2 ++ [Call.commit i]) := by
  unfold commitStep
  cases env.commitRes i <;> rfl

theorem commitFold_eq (env : Env) (l : List Nat) (acc : Except LC Unit × List Call) :
    l.foldl (commitStep env) acc = (acc.1, acc.2 ++ l.map Call.commit) := by
  induction l generalizing acc with
  | nil => simp
  | cons i t ih =>
    rw [List.foldl_cons, commitStep_eq, ih]
    simp

theorem commitPhase_eq (env : Env) (n : Nat) :
    commitPhase env n = (Except.ok (), (List.range n).map Call.commit) := by
  unfold commitPhase
  rw [commitFold_eq]
  simp

theorem commitsOf_append (a b : List Call) :
    commitsOf (a ++ b) = commitsOf a ++ commitsOf b := by
  unfold commitsOf
  exact List.filterMap_append a b _

theorem commitsOf_broadcastExc (n : Nat) (msg : LC) :
    commitsOf (broadcastExc n msg) = [] := by
  unfold commitsOf broadcastExc
  rw [List.filterMap_map]
  exact List.filterMap_eq_nil_iff.mpr (fun a _ => rfl)

theorem commitsOf_flatMapExc (n : Nat) (msgs : List LC) :
    commitsOf (msgs.flatMap (broadcastExc n)) = [] := by
  induction msgs with
  | nil => rfl
  | cons m t ih =>
    rw [List.flatMap_cons, commitsOf_append, commitsOf_broadcastExc, ih]
    rfl

theorem commitsOf_expDispatch (n : Nat) (l : List DomainEntry) :
    commitsOf (l.flatMap (fun e => (List.range n).map (fun i => Call.expiring i e))) = [] := by
  induction l with
  | nil => rfl
  | cons e t ih =>
    rw [List.flatMap_cons, commitsOf_append, ih, List.append_nil]
    unfold commitsOf
    rw [List.filterMap_map]
    exact List.filterMap_eq_nil_iff.mpr (fun a _ => rfl)

theorem commitsOf_sslDispatch (n : Nat) (l : List SslEntry) :
    commitsOf (l.flatMap (fun e => (List.range n).map (fun i => Call.expiringSsl i e))) = [] := by
  induction l with
  | nil => rfl
  | cons e t ih =>
    rw [List.flatMap_cons, commitsOf_append, ih, List.append_nil]
    unfold commitsOf
    rw [List.filterMap_map]
    exact List.filterMap_eq_nil_iff.mpr (fun a _ => rfl)

theorem commitsOf_ite (p : Prop) [Decidable p] (n : Nat) (msg : LC) :
    commitsOf (if p then [] else broadcastExc n msg) = [] := by
  split
  · rfl
  · exact commitsOf_broadcastExc n msg

theorem commitsOf_mapCommit (l : List Nat) : commitsOf (l.map Call.commit) = l := by
  induction l with
  | nil => rfl
  | cons i t ih =>
    unfold commitsOf at ih ⊢
    rw [List.map_cons, List.filterMap_cons]
    simp only [ih]

theorem runMainOut_trace (cfg : Config) (env : Env) :
    (runMainOut cfg env).trace =
      (loadSources env).2.flatMap (broadcastExc cfg.nNotifiers) ++
      (if (runDomainPass cfg env).2.isEmpty then []
       else broadcastExc cfg.nNotifiers (domainFailMsg (runDomainPass cfg env).2)) ++
      (if (runSslPass cfg env).2.isEmpty then []
       else broadcastExc cfg.nNotifiers (sslFailMsg (runSslPass cfg env).2)) ++
      (sortDomainEntries ((runDomainPass cfg env).1.map Prod.snd)).flatMap
        (fun e => (List.range cfg.nNotifiers).map (fun i => Call.expiring i e)) ++
      (sortSslEntries ((runSslPass cfg env).1.map Prod.snd)).flatMap
        (fun e => (List.range cfg.nNotifiers).map (fun i => Call.expiringSsl i e)) ++
      (commitPhase env cfg.nNotifiers).2 := rfl

/-- C9: the run always succeeds — for every combination of source, probe
and commit outcomes, `run` returns `Ok` — and on the main path the commit
call reaches every registered notifier in order, whatever each notifier's
commit outcome was; on the empty-hostname early return no commit happens. -/
theorem run_always_ok (cfg : Config) (env : Env) :
    (run cfg env).result = Except.ok () ∧
    commitsOf (run cfg env).trace =
      (if (loadSources env).1.isEmpty then [] else List.range cfg.nNotifiers) := by
  unfold run
  by_cases hemp : (loadSources env).1.isEmpty = true
  · rw [if_pos hemp, if_pos hemp]
    exact ⟨rfl, commitsOf_flatMapExc _ _⟩
  · rw [if_neg hemp, if_neg hemp]
    constructor
    · show (commitPhase env cfg.nNotifiers).1 = Except.ok ()
      rw [commitPhase_eq]
    · rw [runMainOut_trace, commitsOf_append, commitsOf_append, commitsOf_append,
        commitsOf_append, commitsOf_append, commitsOf_flatMapExc, commitsOf_ite,
        commitsOf_ite, commitsOf_expDispatch, commitsOf_sslDispatch, commitPhase_eq,
        commitsOf_mapCommit]
      rfl

/-- C2 counterexample: with a single failing source the merged hostname
set is empty and the run terminates successfully, yet a source-error
exception notification is emitted — "no notifier calls at all" fails as
stated. -/
theorem empty_set_counterexample :
    (run c2Cfg c2Env).hostnames = [] ∧
    (run c2Cfg c2Env).result = Except.ok () ∧
    (run c2Cfg c2Env).trace ≠ [] :=
  ⟨by decide, by decide, by decide⟩

/-- C2 amended: when the merged hostname set is empty the run returns Ok
immediately with no expiration entries, no certificate entries and no
commit calls; the only notifier calls are the source-error exceptions, so
a run whose sources all succeeded makes no notifier calls at all. -/
theorem empty_set_early_return (cfg : Config) (env : Env)
    (h : (loadSources env).1 = []) :
    (run cfg env).result = Except.ok () ∧
    (run cfg env).trace = (loadSources env).2.flatMap (broadcastExc cfg.nNotifiers) ∧
    ((loadSources env).2 = [] → (run cfg env).trace = []) := by
  unfold run
  rw [if_pos (by rw [h]; rfl)]
  refine ⟨rfl, rfl, fun h2 => ?_⟩
  show (loadSources env).2.flatMap (broadcastExc cfg.nNotifiers) = []
  rw [h2]
  rfl

/-- C2 amended witness: one configured source succeeding with an empty
domain list — the run is entirely silent. -/
theorem empty_set_early_return_witness :
    (loadSources c2bEnv).1 = [] ∧
    (run c2Cfg c2bEnv).result = Except.ok () ∧
    (run c2Cfg c2bEnv).trace = [] :=
  ⟨by decide, (empty_set_early_return c2Cfg c2bEnv (by decide)).1,
   (empty_set_early_return c2Cfg c2bEnv (by decide)).2.2 (by decide)⟩

/-- C1 counterexample: a WHOIS probe failing with a timeout-classified
error (`connection timed out` contains the expected substring `timed
out`) is nevertheless added to the domain failure set and a domain
exception notification is raised — while the TLS side does filter its own
expected failure in the very same run. -/
theorem whois_expected_error_counterexample :
    isExpectedError "connection timed out".data = true ∧
    (run c1Cfg c1Env).domainFailed = [dashName "example.com".data] ∧
    Call.exc 0 (domainFailMsg [dashName "example.com".data]) ∈ (run c1Cfg c1Env).trace ∧
    (run c1Cfg c1Env).sslFailed = [] :=
  ⟨by decide, by decide, by decide, by decide⟩

/-- C1 amended: the expected-error substring filter applies only to TLS
certificate probe failures — a TLS failure whose message contains an
expected substring never enters the certificate failure set — whereas a
WHOIS probe failure enters the domain failure set unconditionally,
whatever its message. -/
theorem probe_error_filtering (cfg : Config) (env : Env) :
    (∀ x, x ∈ (run cfg env).domainFailed ↔
      ∃ r ∈ (run cfg env).roots, x = dashName r ∧
        ∃ e, env.domainProbe r = Except.error e) ∧
    (∀ x, x ∈ (run cfg env).sslFailed ↔
      ∃ h ∈ (run cfg env).sslHosts, x = dashName h ∧
        ∃ e, env.sslProbe h = Except.error e ∧ isExpectedError e = false) := by
  unfold run
  by_cases hemp : (loadSources env).1.isEmpty = true
  · rw [if_pos hemp]
    constructor
    · intro x
      show x ∈ ([] : List LC) ↔ ∃ r ∈ ([] : List LC), x = dashName r ∧
        ∃ e, env.domainProbe r = Except.error e
      simp
    · intro x
      show x ∈ ([] : List LC) ↔ ∃ h ∈ ([] : List LC), x = dashName h ∧
        ∃ e, env.sslProbe h = Except.error e ∧ isExpectedError e = false
      simp
  · rw [if_neg hemp]
    constructor
    · intro x
      show x ∈ (runDomainPass cfg env).2 ↔ ∃ r ∈ runRoots env, x = dashName r ∧
        ∃ e, env.domainProbe r = Except.error e
      unfold runDomainPass domainPass
      rw [domainFold_failed_mem]
      simp
    · intro x
      show x ∈ (runSslPass cfg env).2 ↔ ∃ h ∈ runSslHosts env, x = dashName h ∧
        ∃ e, env.sslProbe h = Except.error e ∧ isExpectedError e = false
      unfold runSslPass sslPass
      rw [sslFold_failed_mem]
      simp

theorem sslInclB_iff (env : Env) (sa : Int) (s h : LC) :
    sslInclB env sa s h = true ↔
      ∃ ts iss, env.sslProbe h = Except.ok (ts, s, iss) ∧
        (numDays ts env.now ≤ sa ∨ numDays ts env.now ≤ 1) := by
  unfold sslInclB
  cases hpr : env.sslProbe h with
  | ok v =>
    obtain ⟨ts, ser, iss⟩ := v
    simp only [Bool.and_eq_true, decide_eq_true_eq]
    constructor
    · rintro ⟨rfl, hc⟩
      exact ⟨ts, iss, rfl, hc⟩
    · rintro ⟨ts2, iss2, hpe, hc⟩
      injection hpe with hpe2
      injection hpe2 with h1 h23
      injection h23 with h2 h3
      subst h1
      subst h2
      exact ⟨rfl, hc⟩
  | error e =>
    simp only [Bool.false_eq_true, false_iff]
    rintro ⟨ts2, iss2, hpe, _⟩
    cases hpe

/-- C3: a domain result is included iff `days < alarm_days || days < 3`
(strict, with an unconditional floor of 3), and a certificate result is
included iff `days <= ssl_alarm_days || days <= 1` (non-strict, floor 1);
with the domain threshold 0, a root 2 days from expiry is included and one
5 days out is excluded. -/
theorem aggregator_inclusion (cfg : Config) (env : Env) :
    (∀ r, r ∈ (run cfg env).expiringDomains.map Prod.fst ↔
      r ∈ (run cfg env).roots ∧
        ∃ ts, env.domainProbe r = Except.ok ts ∧
          (numDays ts env.now < cfg.alarm_days ∨ numDays ts env.now < 3)) ∧
    (∀ s, s ∈ (run cfg env).expiringSsl.map Prod.fst ↔
      ∃ h ∈ (run cfg env).sslHosts, ∃ ts iss,
        env.sslProbe h = Except.ok (ts, s, iss) ∧
        (numDays ts env.now ≤ cfg.ssl_alarm_days ∨ numDays ts env.now ≤ 1)) ∧
    (run c3Cfg c3Env).expiringDomains.map Prod.fst = ["two.com".data] := by
  refine ⟨?_, ?_, by decide⟩
  · intro r
    unfold run
    by_cases hemp : (loadSources env).1.isEmpty = true
    · rw [if_pos hemp]
      show r ∈ (([] : List (LC × DomainEntry)).map Prod.fst) ↔
        r ∈ ([] : List LC) ∧ _
      simp
    · rw [if_neg hemp]
      show r ∈ (runDomainPass cfg env).1.map Prod.fst ↔
        r ∈ runRoots env ∧ ∃ ts, env.domainProbe r = Except.ok ts ∧
          (numDays ts env.now < cfg.alarm_days ∨ numDays ts env.now < 3)
      unfold runDomainPass domainPass
      rw [domainFold_keys_mem]
      unfold domainIncl
      simp
  · intro s
    unfold run
    by_cases hemp : (loadSources env).1.isEmpty = true
    · rw [if_pos hemp]
      show s ∈ (([] : List (LC × SslEntry)).map Prod.fst) ↔
        ∃ h ∈ ([] : List LC), _
      simp
    · rw [if_neg hemp]
      show s ∈ (runSslPass cfg env).1.map Prod.fst ↔
        ∃ h ∈ runSslHosts env, ∃ ts iss,
          env.sslProbe h = Except.ok (ts, s, iss) ∧
          (numDays ts env.now ≤ cfg.ssl_alarm_days ∨ numDays ts env.now ≤ 1)
      unfold runSslPass sslPass
      rw [sslFold_keys_mem]
      simp only [sslInclB_iff]
      simp

/-- C4: certificate entries are keyed by serial — every stored entry's
`more` equals the number of candidate hostnames whose probe returned that
serial and met the threshold (hence at least 1), and the map holds exactly
one entry per serial; concretely, two hostnames sharing serial `AA` yield
one entry with `more = 2`, a single hostname yields `more = 1`. -/
theorem cert_dedup_by_serial (cfg : Config) (env : Env) :
    (∀ s e, lookupA (run cfg env).expiringSsl s = some e →
      e.more = ((run cfg env).sslHosts.countP (sslInclB env cfg.ssl_alarm_days s) : Int) ∧
      1 ≤ e.more ∧
      (run cfg env).expiringSsl.countP (fun p => p.1 = s) = 1) ∧
    (run c4Cfg c4Env).expiringSsl.map (fun p => (p.1, p.2.more)) = [("AA".data, 2)] ∧
    (run c4Cfg c4bEnv).expiringSsl.map (fun p => (p.1, p.2.more)) = [("AA".data, 1)] := by
  refine ⟨?_, by decide, by decide⟩
  intro s e hl
  revert hl
  unfold run
  by_cases hemp : (loadSources env).1.isEmpty = true
  · rw [if_pos hemp]
    intro hl
    cases hl
  · rw [if_neg hemp]
    intro hl
    have hl2 : lookupA (runSslPass cfg env).1 s = some e := hl
    have hpos0 : ∀ s2 e2, lookupA (([], []) : List (LC × SslEntry) × List LC).1 s2 = some e2 →
        1 ≤ e2.more := by
      intro s2 e2 h2
      cases h2
    obtain ⟨hpos, hcount⟩ :=
      sslFold_more env cfg.ssl_alarm_days (runSslHosts env) ([], []) hpos0
    have hmore : e.more = moreAt (runSslPass cfg env).1 s := by
      unfold moreAt
      rw [hl2]
      rfl
    have hkey : s ∈ (runSslPass cfg env).1.map Prod.fst := mem_keys_of_lookupA hl2
    have hnd : ((runSslPass cfg env).1.map Prod.fst).Nodup := by
      unfold runSslPass sslPass
      exact sslFold_keys_nodup env cfg.ssl_alarm_days (runSslHosts env) ([], []) (by simp)
    refine ⟨?_, hpos s e hl2, countP_keys_eq_one hnd hkey⟩
    rw [hmore]
    have hfield : (runMainOut cfg env).sslHosts = runSslHosts env := rfl
    rw [hfield]
    have hc : moreAt (runSslPass cfg env).1 s =
        moreAt ((([], []) : List (LC × SslEntry) × List LC)).1 s +
          (((runSslHosts env).countP (sslInclB env cfg.ssl_alarm_days s)) : Int) :=
      hcount s
    rw [hc]
    show (0 : Int) + _ = _
    omega

/-- C4 witness: the duplicated-serial environment has exactly the entry
with `more = 2`, and the general theorem applies to it. -/
theorem cert_dedup_by_serial_witness :
    lookupA (run c4Cfg c4Env).expiringSsl "AA".data =
      some ⟨"AA".data, "Org".data, 0, "b.x.com".data, 0, 2⟩ ∧
    ((⟨"AA".data, "Org".data, 0, "b.x.com".data, 0, 2⟩ : SslEntry).more =
      ((run c4Cfg c4Env).sslHosts.countP
        (sslInclB c4Env c4Cfg.ssl_alarm_days "AA".data) : Int) ∧
     1 ≤ (⟨"AA".data, "Org".data, 0, "b.x.com".data, 0, 2⟩ : SslEntry).more ∧
     (run c4Cfg c4Env).expiringSsl.countP (fun p => p.1 = "AA".data) = 1) :=
  ⟨by decide,
   (cert_dedup_by_serial c4Cfg c4Env).1 "AA".data
     ⟨"AA".data, "Org".data, 0, "b.x.com".data, 0, 2⟩ (by decide)⟩

/-- C8: before dispatch both entry lists are sorted ascending by `days`
(the dispatch lists are ordered permutations of the aggregated entries),
and entries with days `[10, -5, 2]` are dispatched in order `[-5, 2, 10]`. -/
theorem dispatch_sorted (cfg : Config) (env : Env) :
    List.Pairwise (fun a b : DomainEntry => a.days ≤ b.days) (run cfg env).domainList ∧
    (run cfg env).domainList.Perm ((run cfg env).expiringDomains.map Prod.snd) ∧
    List.Pairwise (fun a b : SslEntry => a.days ≤ b.days) (run cfg env).sslList ∧
    (run cfg env).sslList.Perm ((run cfg env).expiringSsl.map Prod.snd) ∧
    sortDomainEntries [⟨"a".data, 0, 10⟩, ⟨"b".data, 0, -5⟩, ⟨"c".data, 0, 2⟩] =
      [⟨"b".data, 0, -5⟩, ⟨"c".data, 0, 2⟩, ⟨"a".data, 0, 10⟩] := by
  haveI hTotD : IsTotal DomainEntry (fun a b => a.days ≤ b.days) :=
    ⟨fun a b => by omega⟩
  haveI hTrD : IsTrans DomainEntry (fun a b => a.days ≤ b.days) :=
    ⟨fun a b c h1 h2 => by omega⟩
  haveI hTotS : IsTotal SslEntry (fun a b => a.days ≤ b.days) :=
    ⟨fun a b => by omega⟩
  haveI hTrS : IsTrans SslEntry (fun a b => a.days ≤ b.days) :=
    ⟨fun a b c h1 h2 => by omega⟩
  refine ⟨?_, ?_, ?_, ?_, by decide⟩ <;> unfold run <;>
    by_cases hemp : (loadSources env).1.isEmpty = true
  · rw [if_pos hemp]
    exact List.Pairwise.nil
  · rw [if_neg hemp]
    show List.Pairwise _ (sortDomainEntries ((runDomainPass cfg env).1.map Prod.snd))
    exact List.sorted_insertionSort _ _
  · rw [if_pos hemp]
    exact List.Perm.refl _
  · rw [if_neg hemp]
    show (sortDomainEntries ((runDomainPass cfg env).1.map Prod.snd)).Perm
      ((runDomainPass cfg env).1.map Prod.snd)
    exact List.perm_insertionSort _ _
  · rw [if_pos hemp]
    exact List.Pairwise.nil
  · rw [if_neg hemp]
    show List.Pairwise _ (sortSslEntries ((runSslPass cfg env).1.map Prod.snd))
    exact List.sorted_insertionSort _ _
  · rw [if_pos hemp]
    exact List.Perm.refl _
  · rw [if_neg hemp]
    show (sortSslEntries ((runSslPass cfg env).1.map Prod.snd)).Perm
      ((runSslPass cfg env).1.map Prod.snd)
    exact List.perm_insertionSort _ _

/-! ## The WHOIS scan matches its specification (claim C5) -/

theorem firstSome_none {l : List (Option Int)} (h : ∀ o ∈ l, o = none) :
    firstSome l = none := by
  induction l with
  | nil => rfl
  | cons o t ih =>
    have ho := h o (List.mem_cons_self o t)
    subst ho
    exact ih (fun o2 ho2 => h o2 (List.mem_cons_of_mem _ ho2))

theorem tryFormats_d_only (P : WhoisParsers) (ds : LC) (fmts : List LC)
    (h : ∀ f ∈ fmts, P.dtParse ds f = none) :
    tryFormats P ds fmts = (firstSome (fmts.map (fun f => P.dParse ds f))).map dateAt235959 := by
  induction fmts with
  | nil => rfl
  | cons f t ih =>
    show (match P.dtParse ds f with
      | some dt => some dt
      | none =>
        match P.dParse ds f with
        | some d => some (dateAt235959 d)
        | none => tryFormats P ds t) = _
    rw [h f (List.mem_cons_self f t)]
    rw [List.map_cons]
    cases hd : P.dParse ds f with
    | some d => rfl
    | none =>
      show tryFormats P ds t = (firstSome (none :: t.map (fun f => P.dParse ds f))).map dateAt235959
      rw [ih (fun f2 hf2 => h f2 (List.mem_cons_of_mem _ hf2))]
      rfl

theorem tryFormats_spec_gen (P : WhoisParsers) (ds : LC) (f0 : LC) (rest : List LC)
    (Hdt : ∀ g ∈ rest, P.dtParse ds g = none) :
    tryFormats P ds (f0 :: rest) =
      (match firstSome ((f0 :: rest).map (fun f => P.dtParse ds f)) with
       | some v => some v
       | none =>
         (firstSome ((f0 :: rest).map (fun f => P.dParse ds f))).map dateAt235959) := by
  rw [List.map_cons, List.map_cons]
  cases h1 : P.dtParse ds f0 with
  | some v =>
    show (match P.dtParse ds f0 with
      | some dt => some dt
      | none =>
        match P.dParse ds f0 with
        | some d => some (dateAt235959 d)
        | none => tryFormats P ds rest) = _
    rw [h1]
    rfl
  | none =>
    show (match P.dtParse ds f0 with
      | some dt => some dt
      | none =>
        match P.dParse ds f0 with
        | some d => some (dateAt235959 d)
        | none => tryFormats P ds rest) = _
    rw [h1]
    have hrest : firstSome (rest.map (fun f => P.dtParse ds f)) = none :=
      firstSome_none (fun o ho => by
        obtain ⟨g, hg, rfl⟩ := List.mem_map.mp ho
        exact Hdt g hg)
    show (match P.dParse ds f0 with
      | some d => some (dateAt235959 d)
      | none => tryFormats P ds rest) =
      (match firstSome (none :: rest.map (fun f => P.dtParse ds f)) with
       | some v => some v
       | none =>
         (firstSome (P.dParse ds f0 :: rest.map (fun f => P.dParse ds f))).map dateAt235959)
    show (match P.dParse ds f0 with
      | some d => some (dateAt235959 d)
      | none => tryFormats P ds rest) =
      (match firstSome (rest.map (fun f => P.dtParse ds f)) with
       | some v => some v
       | none =>
         (firstSome (P.dParse ds f0 :: rest.map (fun f => P.dParse ds f))).map dateAt235959)
    rw [hrest]
    cases hd : P.dParse ds f0 with
    | some d => rfl
    | none =>
      show tryFormats P ds rest =
        (firstSome (rest.map (fun f => P.dParse ds f))).map dateAt235959
      exact tryFormats_d_only P ds rest Hdt

theorem patternLoop_eq (P : WhoisParsers) (t low : LC) (pats : List LC) :
    patternLoop P t low pats =
      if pats.any (fun p => hasSub low p) then lineAttempt P t else none := by
  induction pats with
  | nil => rfl
  | cons p r ih =>
    show (if hasSub low p then
        match lineAttempt P t with
        | some v => some v
        | none => patternLoop P t low r
      else patternLoop P t low r) = _
    rw [List.any_cons]
    by_cases hp : hasSub low p = true
    · rw [if_pos hp, hp, Bool.true_or, if_pos rfl]
      cases ha : lineAttempt P t with
      | some v => rfl
      | none =>
        show patternLoop P t low r = none
        rw [ih, ha]
        split <;> rfl
    · rw [if_neg hp, ih, Bool.eq_false_iff.mpr hp, Bool.false_or]

theorem tryFormats_spec (P : WhoisParsers) (ds : LC)
    (Hdt : ∀ s f, f ∈ whois_formats.tail → P.dtParse s f = none) :
    tryFormats P ds whois_formats =
      (match firstSome (whois_formats.map (fun f => P.dtParse ds f)) with
       | some v => some v
       | none =>
         (firstSome (whois_formats.map (fun f => P.dParse ds f))).map dateAt235959) :=
  tryFormats_spec_gen P ds "%Y-%m-%d %H:%M:%S".data whois_formats.tail
    (fun g hg => Hdt ds g hg)

theorem lineAttempt_spec (P : WhoisParsers)
    (Hdt : ∀ s f, f ∈ whois_formats.tail → P.dtParse s f = none) (t : LC) :
    lineAttempt P t =
      (match t.findIdx? (· = ':') with
       | none => none
       | some colon_pos =>
         match P.rfc3339 (trimL (t.drop (colon_pos + 1))) with
         | some v => some v
         | none =>
           match firstSome (whois_formats.map
               (fun f => P.dtParse (trimL (t.drop (colon_pos + 1))) f)) with
           | some v => some v
           | none =>
             (firstSome (whois_formats.map
               (fun f => P.dParse (trimL (t.drop (colon_pos + 1))) f))).map dateAt235959) := by
  unfold lineAttempt
  cases hi : t.findIdx? (· = ':') with
  | none => rfl
  | some colon_pos =>
    show (match P.rfc3339 (trimL (t.drop (colon_pos + 1))) with
      | some dt => some dt
      | none => tryFormats P (trimL (t.drop (colon_pos + 1))) whois_formats) =
      (match P.rfc3339 (trimL (t.drop (colon_pos + 1))) with
       | some v => some v
       | none =>
         match firstSome (whois_formats.map
             (fun f => P.dtParse (trimL (t.drop (colon_pos + 1))) f)) with
         | some v => some v
         | none =>
           (firstSome (whois_formats.map
             (fun f => P.dParse (trimL (t.drop (colon_pos + 1))) f))).map dateAt235959)
    cases hr : P.rfc3339 (trimL (t.drop (colon_pos + 1))) with
    | some v => rfl
    | none =>
      show tryFormats P (trimL (t.drop (colon_pos + 1))) whois_formats = _
      exact tryFormats_spec P _ Hdt

theorem lineLoop_spec (P : WhoisParsers)
    (Hdt : ∀ s f, f ∈ whois_formats.tail → P.dtParse s f = none) (lines : List LC) :
    lineLoop P lines = firstSome (lines.map (fun l => specLineAttempt P (trimL l))) := by
  induction lines with
  | nil => rfl
  | cons l rest ih =>
    show (match patternLoop P (trimL l) (lowerL (trimL l)) expiry_patterns with
      | some v => some v
      | none => lineLoop P rest) = _
    rw [List.map_cons, patternLoop_eq]
    have hspec : specLineAttempt P (trimL l) =
        if expiry_patterns.any (fun pat => hasSub (lowerL (trimL l)) pat) then
          lineAttempt P (trimL l) else none := by
      unfold specLineAttempt
      rw [lineAttempt_spec P Hdt]
    rw [hspec]
    by_cases hmatch :
        expiry_patterns.any (fun pat => hasSub (lowerL (trimL l)) pat) = true
    · rw [if_pos hmatch]
      cases ha : lineAttempt P (trimL l) with
      | some v => rfl
      | none =>
        show lineLoop P rest =
          firstSome (rest.map (fun l2 => specLineAttempt P (trimL l2)))
        exact ih
    · rw [if_neg hmatch]
      show lineLoop P rest =
        firstSome (rest.map (fun l2 => specLineAttempt P (trimL l2)))
      exact ih

/-- C5: under the (true) `chrono` fact that `NaiveDateTime` parsing always
fails for the five formats without time specifiers, `parse_whois_expiry`
computes exactly the specification's scan: first matching line by matching
line, substring after the first colon, RFC3339, then the six formats as
date-time, then as date-only at 23:59:59 UTC, first success returned, and
the fixed parse error iff no line/format combination parses. -/
theorem whois_parse_spec (P : WhoisParsers)
    (Hdt : ∀ s f, f ∈ whois_formats.tail → P.dtParse s f = none) (text : LC) :
    parse_whois_expiry P text = whoisSpecParse P text := by
  unfold parse_whois_expiry whoisSpecParse
  rw [lineLoop_spec P Hdt]

/-- C5 witness: concrete parsers recognising only `%Y-%m-%d` as date-only,
run on a two-line WHOIS response. -/
theorem whois_parse_spec_witness :
    (∀ s f, f ∈ whois_formats.tail → c5P.dtParse s f = none) ∧
    parse_whois_expiry c5P c5Text = whoisSpecParse c5P c5Text ∧
    parse_whois_expiry c5P c5Text = Except.ok 1735775999 :=
  ⟨fun _ _ _ => rfl, whois_parse_spec c5P (fun _ _ _ => rfl) c5Text, by decide⟩

end SslChecker
